import Mathlib

/-!
Verification of the VFP documentation scraper (`vfp_documentation_scraper.py`).

The development shallowly embeds the scraper: HTML documents become a tree
type `HNode`, the BeautifulSoup queries used by the code (`find_all`,
`get_text(strip=True)`, `.parent.name`, `soup.title`, `soup.body`) become
recursive functions on that tree, `urllib.parse.urljoin` / `urlparse` are
modelled for the URL shapes the crawler handles (absolute http(s) URLs,
same-page fragments, root-relative and relative paths; no dot-segment
resolution, which the crawl never relies on), the network becomes an
explicit function from URL to fetch outcome, and the two crawl loops of
`VFPDocScraper` become structurally recursive state-passing functions.
-/

/-- An HTML node: either a text node or an element with a tag name, an
attribute list and a child list (document order). -/
inductive HNode where
  | text : String → HNode
  | elem : (tag : String) → (attrs : List (String × String)) → (children : List HNode) → HNode

/-- A parsed HTML document (the BeautifulSoup object): its root node. -/
structure HtmlDoc where
  root : HNode

/-- The whitespace characters Python's `str.strip()` removes (the ASCII
ones; the crawl never meets non-ASCII whitespace). -/
def pyWhitespace (c : Char) : Bool :=
  c == ' ' || c == '\t' || c == '\n' || c == '\r' || c == '\x0b' || c == '\x0c'

/-- Python's `str.strip()`: drop leading and trailing whitespace. -/
def pyStrip (s : String) : String :=
  String.mk (((s.toList.dropWhile pyWhitespace).reverse.dropWhile pyWhitespace).reverse)

/-- Whether `pat` is a prefix of `cs`. -/
def listStarts (pat cs : List Char) : Bool :=
  match pat, cs with
  | [], _ => true
  | _ :: _, [] => false
  | p :: ps, c :: cs' => p == c && listStarts ps cs'

/-- Python's `str.startswith`. -/
def pyStartsWith (s pat : String) : Bool := listStarts pat.toList s.toList

/-- The first occurrence of `pat` in `cs`: the characters before it and the
characters after it, when it occurs. -/
def firstOccur (pat : List Char) : List Char → Option (List Char × List Char)
  | [] => if listStarts pat [] then some ([], []) else none
  | c :: cs =>
    if listStarts pat (c :: cs) then some ([], (c :: cs).drop pat.length)
    else
      match firstOccur pat cs with
      | some (b, a) => some (c :: b, a)
      | none => none

/-- Python's `pat in s` substring test (for a non-empty pattern). -/
def strContains (s pat : String) : Bool := (firstOccur pat.toList s.toList).isSome

/-- Split at the first occurrence of `sep`: `(before, after)`; the whole
string and `""` when `sep` does not occur. -/
def splitFirst (s sep : String) : String × String :=
  match firstOccur sep.toList s.toList with
  | some (b, a) => (String.mk b, String.mk a)
  | none => (s, "")

mutual

/-- `node.get_text()` (the `.text` property): concatenation of all text-node
contents in document order, no stripping. -/
def getTextRaw : HNode → String
  | .text s => s
  | .elem _ _ cs => getTextRawList cs

def getTextRawList : List HNode → String
  | [] => ""
  | c :: cs => getTextRaw c ++ getTextRawList cs

end

mutual

/-- `node.get_text(strip=True)`: concatenation of the whitespace-stripped
text-node contents in document order (BeautifulSoup joins the stripped
strings with the empty separator). -/
def getTextStrip : HNode → String
  | .text s => pyStrip s
  | .elem _ _ cs => getTextStripList cs

def getTextStripList : List HNode → String
  | [] => ""
  | c :: cs => getTextStrip c ++ getTextStripList cs

end

mutual

/-- All element descendants of a node in document (pre-order) order, each
paired with the tag name of its immediate parent; the node itself is listed
first under the given parent tag.  This is `find_all` together with the
`.parent.name` lookup the extractor performs. -/
def descWP (ptag : String) : HNode → List (HNode × String)
  | .text _ => []
  | .elem t a cs => (HNode.elem t a cs, ptag) :: descWPList t cs

def descWPList (ptag : String) : List HNode → List (HNode × String)
  | [] => []
  | c :: cs => descWP ptag c ++ descWPList ptag cs

end

/-- `main_content.find_all(...)` iterates over the element descendants of
`body` (excluding `body` itself), in document order, with parent tags. -/
def bodyDescendants : HNode → List (HNode × String)
  | .text _ => []
  | .elem t _ cs => descWPList t cs

mutual

/-- `soup.find(tagname)` / `soup.title` / `soup.body`: first element with the
given tag in document (pre-order) order, the root included. -/
def findFirstTag (t : String) : HNode → Option HNode
  | .text _ => none
  | .elem tg a cs =>
    if tg = t then some (HNode.elem tg a cs) else findFirstTagList t cs

def findFirstTagList (t : String) : List HNode → Option HNode
  | [] => none
  | c :: cs =>
    match findFirstTag t c with
    | some e => some e
    | none => findFirstTagList t cs

end

mutual

/-- `soup.find_all('a', href=True)`: every anchor element that carries an
`href` attribute, in document order, as the pair
`(href value, get_text(strip=True) of the anchor)`. -/
def aTagsNode : HNode → List (String × String)
  | .text _ => []
  | .elem tg attrs cs =>
    let rest := aTagsList cs
    if tg = "a" then
      match attrs.lookup "href" with
      | some h => (h, getTextStripList cs) :: rest
      | none => rest
    else rest

def aTagsList : List HNode → List (String × String)
  | [] => []
  | c :: cs => aTagsNode c ++ aTagsList cs

end

/-- The components of a parsed URL that the scraper uses. -/
structure UrlParts where
  scheme : String
  netloc : String
  path : String
  query : String
  fragment : String
deriving Repr, DecidableEq

/-- Split `host/rest` into the netloc and the path (keeping the path's
leading slash). -/
def splitNetloc (s : String) : String × String :=
  (String.mk (s.toList.takeWhile (fun c => c ≠ '/')),
   String.mk (s.toList.dropWhile (fun c => c ≠ '/')))

/-- Model of `urllib.parse.urlparse` for the URL shapes the crawler handles:
the fragment is everything after the first `#`, the query everything after
the first `?` of what remains, a scheme is present exactly when `://`
occurs, and the netloc then runs up to the next `/`. -/
def urlparse (s : String) : UrlParts :=
  let (s1, fragment) := splitFirst s "#"
  let (s2, query) := splitFirst s1 "?"
  if strContains s2 "://" then
    let (scheme, rest) := splitFirst s2 "://"
    let (netloc, path) := splitNetloc rest
    ⟨scheme, netloc, path, query, fragment⟩
  else
    ⟨"", "", s2, query, fragment⟩

/-- The crawl's de-duplication key: `netloc + path`, query and fragment
stripped (`normalized_url` in `scrape_letter_page`). -/
def normalizeUrl (u : String) : String :=
  let p := urlparse u
  p.netloc ++ p.path

/-- The base URL with its fragment removed. -/
def stripFragment (s : String) : String := (splitFirst s "#").1

/-- The directory part of a path: up to and including the last `/`
(`"/"` when the path has none). -/
def dirOf (p : String) : String :=
  let r := p.toList.reverse.dropWhile (fun c => c ≠ '/')
  if r.isEmpty then "/" else String.mk r.reverse

/-- Model of `urllib.parse.urljoin` for the href shapes occurring on the
site: an absolute URL (containing `://`) replaces the base; a fragment-only
href re-targets the base page; a root-relative href replaces the base path;
any other href is resolved against the directory of the base path.  Dot
segments are not normalized (the crawl never depends on them). -/
def urljoin (base rel : String) : String :=
  if rel = "" then base
  else if strContains rel "://" then rel
  else if pyStartsWith rel "#" then stripFragment base ++ rel
  else
    let bp := urlparse base
    let pre := bp.scheme ++ "://" ++ bp.netloc
    if pyStartsWith rel "/" then pre ++ rel
    else pre ++ dirOf bp.path ++ rel

/-- One extracted keyword page (`extract_keyword_content`'s result dict). -/
structure PageRecord where
  url : String
  title : String
  text_content : List String
  code_blocks : List String
deriving Repr, DecidableEq

/-- The outcome of `requests.get(url, timeout=10)`: a response with an HTTP
status code and a parsed body, or a failure (network error, timeout, or a
body the parser rejects). -/
inductive FetchOutcome where
  | success : Nat → HtmlDoc → FetchOutcome
  | failure : FetchOutcome

/-- The network, as seen by one run: what each URL answers. -/
def Net := String → FetchOutcome

/-- `fetch_page`: one GET; `raise_for_status` turns every status `≥ 400`
into an exception, and every exception is caught and becomes `none`. -/
def fetch_page (net : Net) (url : String) : Option HtmlDoc :=
  match net url with
  | .success code doc => if code < 400 then some doc else none
  | .failure => none

/-- The tags collected as text content by `extract_keyword_content`. -/
def textTags : List String := ["p", "h1", "h2", "h3", "h4", "h5", "h6", "li"]

/-- The parent tags excluded from text content. -/
def navTags : List String := ["nav", "header", "footer"]

/-- The text-content pass of `extract_keyword_content`: every `p`, `h1`-`h6`
or `li` descendant of `body`, skipped when its immediate parent is `nav`,
`header` or `footer`, its stripped text kept when non-empty. -/
def textContent (body : HNode) : List String :=
  (bodyDescendants body).filterMap fun pe =>
    match pe.1 with
    | .elem tg _ _ =>
      if tg ∈ textTags then
        if pe.2 ∈ navTags then none
        else
          let t := getTextStrip pe.1
          if t = "" then none else some t
      else none
    | .text _ => none

/-- The code-block pass of `extract_keyword_content`: every `pre` or `code`
descendant of `body`, its stripped text kept when non-empty; no parent-tag
exclusion. -/
def codeBlocks (body : HNode) : List String :=
  (bodyDescendants body).filterMap fun pe =>
    match pe.1 with
    | .elem tg _ _ =>
      if tg ∈ ["pre", "code"] then
        let t := getTextStrip pe.1
        if t = "" then none else some t
      else none
    | .text _ => none

/-- `extract_keyword_content`: fetch the page; on failure return `none`;
otherwise build the record from the title element, and from the `body`
(empty content sequences when there is no `body`). -/
def extract_keyword_content (net : Net) (url : String) : Option PageRecord :=
  match fetch_page net url with
  | none => none
  | some doc =>
    let title := match findFirstTag "title" doc.root with
      | some t => pyStrip (getTextRaw t)
      | none => "No title"
    match findFirstTag "body" doc.root with
    | none => some ⟨url, title, [], []⟩
    | some body => some ⟨url, title, textContent body, codeBlocks body⟩

/-- The crawler's cross-call state: `visited_urls` (a set of normalized
URLs, modelled as a duplicate-free list) and the accumulated `results`. -/
structure ScraperState where
  visited : List String
  results : List PageRecord
deriving Repr, DecidableEq

/-- The discovery loop of `scrape_letter_page`: walk the letter page's
anchors in document order; skip hrefs without `section4/`; resolve against
the letter page's URL; skip when the normalized URL is already visited,
else mark it visited and keep `(anchor text, full URL)`.  Returns the grown
visited set and the kept keyword links. -/
def keywordDiscovery (pageUrl : String) (tags : List (String × String)) (visited : List String) :
    List String × List (String × String) :=
  match tags with
  | [] => (visited, [])
  | (href, txt) :: rest =>
    if strContains href "section4/" then
      let full_url := urljoin pageUrl href
      let nu := normalizeUrl full_url
      if nu ∈ visited then keywordDiscovery pageUrl rest visited
      else
        let (v', ks) := keywordDiscovery pageUrl rest (visited ++ [nu])
        (v', (txt, full_url) :: ks)
    else keywordDiscovery pageUrl rest visited

/-- The processing loop of `scrape_letter_page`: fetch and extract each kept
keyword link in order, appending each successful record; a `none` result
contributes nothing.  Also returns the list of keyword URLs for which a
fetch was attempted, in order (the run's keyword-fetch trace). -/
def processKeywordLinks (net : Net) (links : List (String × String)) (results : List PageRecord) :
    List PageRecord × List String :=
  match links with
  | [] => (results, [])
  | (_, url) :: rest =>
    let results' := match extract_keyword_content net url with
      | some r => results ++ [r]
      | none => results
    let (rs, tr) := processKeywordLinks net rest results'
    (rs, url :: tr)

/-- `scrape_letter_page`: fetch the letter page (a failure skips the letter
entirely), run the discovery pass, then the processing pass. -/
def scrape_letter_page (net : Net) (st : ScraperState) (url : String) :
    ScraperState × List String :=
  match fetch_page net url with
  | none => (st, [])
  | some doc =>
    let (v', klinks) := keywordDiscovery url (aTagsNode doc.root) st.visited
    let (rs, tr) := processKeywordLinks net klinks st.results
    (⟨v', rs⟩, tr)

/-- `link_text` qualifies as a letter: a single alphabetic character, or the
literal `"@"` (Python: `(len(link_text) == 1 and link_text.isalpha()) or
link_text == '@'`). -/
def isLetterText (txt : String) : Bool :=
  (txt.length == 1 && txt.toList.all Char.isAlpha) || txt == "@"

/-- The letter-discovery pass of `scrape_alphabet_index`: an anchor is kept
when its stripped text qualifies as a letter and its href contains
`section4/` or starts with `#`; the href is resolved against the index URL.
No de-duplication at this stage. -/
def letterLinks (baseUrl : String) (tags : List (String × String)) : List (String × String) :=
  tags.filterMap fun p =>
    if isLetterText p.2 then
      if strContains p.1 "section4/" || pyStartsWith p.1 "#" then
        some (p.2, urljoin baseUrl p.1)
      else none
    else none

/-- The letter loop of `scrape_alphabet_index`: scrape each letter page in
order, threading the state; traces are concatenated in order. -/
def scrapeLetters (net : Net) (st : ScraperState) : List (String × String) → ScraperState × List String
  | [] => (st, [])
  | (_, url) :: rest =>
    let (st', tr) := scrape_letter_page net st url
    let (st'', tr') := scrapeLetters net st' rest
    (st'', tr ++ tr')

/-- `scrape_alphabet_index`: fetch the root index (a failure ends the walk
with the state unchanged), collect the letter links, scrape each. -/
def scrape_alphabet_index (net : Net) (indexUrl : String) (st : ScraperState) :
    ScraperState × List String :=
  match fetch_page net indexUrl with
  | none => (st, [])
  | some doc => scrapeLetters net st (letterLinks indexUrl (aTagsNode doc.root))

/-- One whole run (`VFPDocScraper.run` up to `save_results`): start from the
empty state and walk the index.  The second component is the keyword-fetch
trace. -/
def runScraper (net : Net) (indexUrl : String) : ScraperState × List String :=
  scrape_alphabet_index net indexUrl ⟨[], []⟩

/-- The JSON values `json.dump` receives from and `json.load` returns to
this program. -/
inductive Json where
  | str : String → Json
  | num : Nat → Json
  | arr : List Json → Json
  | obj : List (String × Json) → Json

/-- A `PageRecord` as the JSON object `save_results` serializes. -/
def recordJson (r : PageRecord) : Json :=
  .obj [("url", .str r.url), ("title", .str r.title),
        ("text_content", .arr (r.text_content.map .str)),
        ("code_blocks", .arr (r.code_blocks.map .str))]

/-- The RunArchive object built by `save_results`. -/
def archiveJson (baseUrl date : String) (results : List PageRecord) : Json :=
  .obj [("base_url", .str baseUrl),
        ("total_keywords", .num results.length),
        ("scraped_date", .str date),
        ("results", .arr (results.map recordJson))]

/-- The top-level keys of a JSON object. -/
def jsonKeys : Json → List String
  | .obj fs => fs.map Prod.fst
  | _ => []

/-- Look a key up in a JSON object. -/
def jsonLookup (k : String) : Json → Option Json
  | .obj fs => fs.lookup k
  | _ => none

/-- Reparse a JSON value as a string (one entry of `text_content` or
`code_blocks`). -/
def jsonStr? : Json → Option String
  | .str s => some s
  | _ => none

/-- Reparse a JSON array's elements as strings, failing on any non-string. -/
def allStrs : List Json → Option (List String)
  | [] => some []
  | j :: js =>
    match jsonStr? j, allStrs js with
    | some s, some ss => some (s :: ss)
    | _, _ => none

/-- Reparse a JSON object as a `PageRecord`, as a reader of the output file
does. -/
def recordOfJson : Json → Option PageRecord
  | .obj fields =>
    match fields.lookup "url", fields.lookup "title",
          fields.lookup "text_content", fields.lookup "code_blocks" with
    | some (.str u), some (.str t), some (.arr tc), some (.arr cb) =>
      match allStrs tc, allStrs cb with
      | some tcs, some cbs => some ⟨u, t, tcs, cbs⟩
      | _, _ => none
    | _, _, _, _ => none
  | _ => none

/-- Reparse a JSON array's elements as `PageRecord`s. -/
def allRecords : List Json → Option (List PageRecord)
  | [] => some []
  | j :: js =>
    match recordOfJson j, allRecords js with
    | some r, some rs => some (r :: rs)
    | _, _ => none

/-- Reparse the `results` array of a RunArchive. -/
def resultsOfJson (j : Json) : Option (List PageRecord) :=
  match jsonLookup "results" j with
  | some (.arr rs) => allRecords rs
  | _ => none

/-- The decimal digit character of `n mod 10`. -/
def digitChar (n : Nat) : Char := Char.ofNat (48 + n % 10)

/-- The wall-clock time `time.strftime` reads at write time. -/
structure DateTime where
  year : Nat
  month : Nat
  day : Nat
  hour : Nat
  minute : Nat
  sec : Nat
deriving Repr, DecidableEq

/-- Model of `time.strftime('%Y-%m-%d %H:%M:%S')`: each field zero-padded to
its width (4 for the year, 2 for the rest), faithful for in-range field
values (year below 10000, others below 100). -/
def strftimeModel (t : DateTime) : String :=
  String.mk [digitChar (t.year / 1000), digitChar (t.year / 100),
             digitChar (t.year / 10), digitChar t.year, '-',
             digitChar (t.month / 10), digitChar t.month, '-',
             digitChar (t.day / 10), digitChar t.day, ' ',
             digitChar (t.hour / 10), digitChar t.hour, ':',
             digitChar (t.minute / 10), digitChar t.minute, ':',
             digitChar (t.sec / 10), digitChar t.sec]

/-- Whether a string has the shape `YYYY-MM-DD HH:MM:SS`: 19 characters,
digits everywhere except `-` at positions 4 and 7, a space at position 10
and `:` at positions 13 and 16. -/
def dateFormatOk (s : String) : Bool :=
  match s.toList with
  | [y1, y2, y3, y4, a, m1, m2, b, d1, d2, c, h1, h2, e, n1, n2, f, s1, s2] =>
    y1.isDigit && y2.isDigit && y3.isDigit && y4.isDigit && a == '-' &&
    m1.isDigit && m2.isDigit && b == '-' && d1.isDigit && d2.isDigit &&
    c == ' ' && h1.isDigit && h2.isDigit && e == ':' && n1.isDigit &&
    n2.isDigit && f == ':' && s1.isDigit && s2.isDigit
  | _ => false

mutual

/-- The JSON text `json.dump` produces for a value (compact separators,
strings taken verbatim: faithful for the strings free of characters that
need escaping; the indentation `json.dump(..., indent=2)` inserts is
whitespace between tokens and does not affect what a reparse recovers). -/
def renderJson : Json → String
  | .str s => "\"" ++ s ++ "\""
  | .num n => toString n
  | .arr xs => "[" ++ renderJsonList xs ++ "]"
  | .obj fs => "\x7b" ++ renderJsonFields fs ++ "\x7d"

def renderJsonList : List Json → String
  | [] => ""
  | [x] => renderJson x
  | x :: y :: xs => renderJson x ++ ", " ++ renderJsonList (y :: xs)

def renderJsonFields : List (String × Json) → String
  | [] => ""
  | [(k, v)] => "\"" ++ k ++ "\": " ++ renderJson v
  | (k, v) :: g :: fs => "\"" ++ k ++ "\": " ++ renderJson v ++ ", " ++ renderJsonFields (g :: fs)

end

/-- Model of `save_results`'s file write: `open(path, 'w')` truncates the
file, then the serialized text is streamed to it character by character.
`fault = some k` models an I/O failure striking after `k` characters have
reached the disk.  Returns the on-disk contents after the call and whether
the write completed. -/
def writeStream (content : List Char) (fault : Option Nat) : List Char × Bool :=
  match fault with
  | none => (content, true)
  | some k => (content.take k, false)

/-- `save_results` as it touches the disk: serialize the RunArchive built
from the current results and stream it to the output file. -/
def save_results_disk (baseUrl date : String) (results : List PageRecord)
    (fault : Option Nat) : List Char × Bool :=
  writeStream (renderJson (archiveJson baseUrl date results)).toList fault

/-- The tag of an element node (`""` for a text node, which never matches a
tag-name query). -/
def elemTag : HNode → String
  | .elem t _ _ => t
  | .text _ => ""

/-- Spec-side text-content predicate, transcribed from the specification:
a heading (h1-h6), paragraph or list-item element whose immediate parent is
not nav/header/footer and whose trimmed text is non-empty. -/
def textKeepSpec (pe : HNode × String) : Prop :=
  elemTag pe.1 ∈ textTags ∧ pe.2 ∉ navTags ∧ getTextStrip pe.1 ≠ ""

instance (pe : HNode × String) : Decidable (textKeepSpec pe) := by
  unfold textKeepSpec; infer_instance

/-- Spec-side text content: the trimmed visible text of exactly the kept
elements, in document order. -/
def textContentSpec (body : HNode) : List String :=
  (((bodyDescendants body).filter fun pe => decide (textKeepSpec pe)).map
    fun pe => getTextStrip pe.1)

/-- Spec-side code-block predicate: a `pre` or `code` element with
non-empty trimmed text; no parent exclusion. -/
def codeKeepSpec (pe : HNode × String) : Prop :=
  (elemTag pe.1 = "pre" ∨ elemTag pe.1 = "code") ∧ getTextStrip pe.1 ≠ ""

instance (pe : HNode × String) : Decidable (codeKeepSpec pe) := by
  unfold codeKeepSpec; infer_instance

/-- Spec-side code blocks: the trimmed visible text of exactly the kept
`pre`/`code` elements, in document order. -/
def codeBlocksSpec (body : HNode) : List String :=
  (((bodyDescendants body).filter fun pe => decide (codeKeepSpec pe)).map
    fun pe => getTextStrip pe.1)

theorem filterMap_eq_filter_map_of_point {α β : Type} (f : α → Option β) (p : α → Bool)
    (g : α → β) (h : ∀ a, f a = if p a then some (g a) else none) :
    ∀ l : List α, l.filterMap f = (l.filter p).map g := by
  intro l
  induction l with
  | nil => rfl
  | cons a t ih =>
    rw [List.filterMap_cons, List.filter_cons, h a]
    by_cases hp : p a = true
    · simp [hp, ih]
    · simp [hp, ih]

theorem textContent_point (pe : HNode × String) :
    (match pe.1 with
     | .elem tg _ _ =>
       if tg ∈ textTags then
         if pe.2 ∈ navTags then none
         else
           let t := getTextStrip pe.1
           if t = "" then none else some t
       else none
     | .text _ => (none : Option String)) =
      if decide (textKeepSpec pe) then some (getTextStrip pe.1) else none := by
  obtain ⟨n, pt⟩ := pe
  cases n with
  | text s =>
    have : ¬ textKeepSpec (HNode.text s, pt) := by
      intro h; exact absurd h.1 (by simp [elemTag, textTags])
    simp [this]
  | elem tg a cs =>
    by_cases h1 : tg ∈ textTags
    · by_cases h2 : pt ∈ navTags
      · have : ¬ textKeepSpec (HNode.elem tg a cs, pt) := fun h => h.2.1 h2
        simp [h1, h2, this]
      · by_cases h3 : getTextStrip (HNode.elem tg a cs) = ""
        · have : ¬ textKeepSpec (HNode.elem tg a cs, pt) := fun h => h.2.2 h3
          simp [h1, h2, h3, this]
        · have : textKeepSpec (HNode.elem tg a cs, pt) := ⟨by simpa [elemTag] using h1, h2, h3⟩
          simp [h1, h2, h3, this]
    · have : ¬ textKeepSpec (HNode.elem tg a cs, pt) := by
        intro h; exact h1 (by simpa [elemTag] using h.1)
      simp [h1, this]

theorem codeBlocks_point (pe : HNode × String) :
    (match pe.1 with
     | .elem tg _ _ =>
       if tg ∈ ["pre", "code"] then
         let t := getTextStrip pe.1
         if t = "" then none else some t
       else none
     | .text _ => (none : Option String)) =
      if decide (codeKeepSpec pe) then some (getTextStrip pe.1) else none := by
  obtain ⟨n, pt⟩ := pe
  cases n with
  | text s =>
    have : ¬ codeKeepSpec (HNode.text s, pt) := by
      intro h; rcases h.1 with h' | h' <;> simp [elemTag] at h'
    simp [this]
  | elem tg a cs =>
    by_cases h1 : tg ∈ ["pre", "code"]
    · by_cases h3 : getTextStrip (HNode.elem tg a cs) = ""
      · have : ¬ codeKeepSpec (HNode.elem tg a cs, pt) := fun h => h.2 h3
        simp [h1, h3, this]
      · have : codeKeepSpec (HNode.elem tg a cs, pt) := by
          refine ⟨?_, h3⟩
          simpa [elemTag] using h1
        simp [h1, h3, this]
    · have : ¬ codeKeepSpec (HNode.elem tg a cs, pt) := by
        intro h
        exact h1 (by simpa [elemTag] using h.1)
      simp [h1, this]

/-- Claim C2: for every parsed keyword document body, `text_content` holds,
in document order, the trimmed text of exactly the heading/paragraph/list
elements whose immediate parent is not nav/header/footer and whose trimmed
text is non-empty, and `code_blocks` holds the trimmed text of every
`pre`/`code` element with non-empty trimmed text, with no parent-based
exclusion. -/
theorem c2_extraction_filters (body : HNode) :
    textContent body = textContentSpec body ∧ codeBlocks body = codeBlocksSpec body := by
  constructor
  · exact filterMap_eq_filter_map_of_point _ _ _ textContent_point (bodyDescendants body)
  · exact filterMap_eq_filter_map_of_point _ _ _ codeBlocks_point (bodyDescendants body)

/-- Spec-side letter-link acceptance, transcribed from the specification: the
trimmed anchor text is exactly one alphabetic character or exactly `"@"`,
and the href contains the keyword-section marker `section4/` or starts with
`#`. -/
def letterAcceptSpec (txt href : String) : Prop :=
  ((txt.length = 1 ∧ ∀ c ∈ txt.toList, c.isAlpha = true) ∨ txt = "@") ∧
  (strContains href "section4/" = true ∨ pyStartsWith href "#" = true)

instance (txt href : String) : Decidable (letterAcceptSpec txt href) := by
  unfold letterAcceptSpec; infer_instance

theorem isLetterText_iff (txt : String) :
    isLetterText txt = true ↔ ((txt.length = 1 ∧ ∀ c ∈ txt.toList, c.isAlpha = true) ∨ txt = "@") := by
  simp [isLetterText, List.all_eq_true]

/-- Claim C3: a root-index anchor is kept as a letter link exactly when its
trimmed text is one alphabetic character or the literal `@` and its href
contains `section4/` or starts with `#`; any anchor text of more than one
character is rejected, whatever its href. -/
theorem c3_letter_link_acceptance (base txt href : String) (tags : List (String × String))
    (h : 1 < txt.length) :
    letterLinks base tags =
      (tags.filterMap fun p =>
        if letterAcceptSpec p.2 p.1 then some (p.2, urljoin base p.1) else none) ∧
    isLetterText txt = false ∧ ¬ letterAcceptSpec txt href := by
  refine ⟨?_, ?_, ?_⟩
  · unfold letterLinks
    congr 1
    funext p
    by_cases h1 : isLetterText p.2 = true
    · by_cases h2 : (strContains p.1 "section4/" || pyStartsWith p.1 "#") = true
      · have hs : letterAcceptSpec p.2 p.1 :=
          ⟨(isLetterText_iff p.2).mp h1, by simpa using h2⟩
        simp [h1, h2, hs]
      · have hs : ¬ letterAcceptSpec p.2 p.1 := by
          intro hc
          exact h2 (by simpa using hc.2)
        simp [h1, h2, hs]
    · have hs : ¬ letterAcceptSpec p.2 p.1 := by
        intro hc
        exact h1 ((isLetterText_iff p.2).mpr hc.1)
      simp [h1, hs]
  · rw [Bool.eq_false_iff]
    intro hc
    rcases (isLetterText_iff txt).mp hc with ⟨h1, _⟩ | h1
    · omega
    · rw [h1] at h; exact absurd h (by decide)
  · intro hc
    rcases hc.1 with ⟨h1, _⟩ | h1
    · omega
    · rw [h1] at h; exact absurd h (by decide)

/-- Witness for C3 at a concrete index page: the single-letter link is kept,
the multi-character link `"AB"` is rejected even though its href contains
`section4/`, and the `@` same-page link is kept. -/
theorem c3_letter_link_acceptance_witness :
    letterLinks "http://h/section4/"
        [("/section4/a.html", "A"), ("/section4/ab.html", "AB"), ("#top", "@")] =
      ([("/section4/a.html", "A"), ("/section4/ab.html", "AB"), ("#top", "@")].filterMap fun p =>
        if letterAcceptSpec p.2 p.1 then some (p.2, urljoin "http://h/section4/" p.1) else none) ∧
    isLetterText "AB" = false ∧ ¬ letterAcceptSpec "AB" "/section4/ab.html" :=
  c3_letter_link_acceptance "http://h/section4/" "AB" "/section4/ab.html"
    [("/section4/a.html", "A"), ("/section4/ab.html", "AB"), ("#top", "@")] (by decide)

theorem digitChar_isDigit (n : Nat) : (digitChar n).isDigit = true := by
  unfold digitChar
  have h : n % 10 < 10 := Nat.mod_lt _ (by omega)
  set m := n % 10 with hm
  clear_value m
  interval_cases m <;> decide

theorem dateFormatOk_strftime (t : DateTime) : dateFormatOk (strftimeModel t) = true := by
  simp [dateFormatOk, strftimeModel, String.toList, digitChar_isDigit]

/-- Claim C7: for every run and write time, the written RunArchive's
top-level keys are exactly `base_url`, `total_keywords`, `scraped_date` and
`results`, `base_url` is the root index URL, `scraped_date` has the shape
`YYYY-MM-DD HH:MM:SS`, and `total_keywords` equals the number of records in
the results array. -/
theorem c7_archive_shape (net : Net) (indexUrl : String) (t : DateTime) :
    jsonKeys (archiveJson indexUrl (strftimeModel t) (runScraper net indexUrl).1.results) =
      ["base_url", "total_keywords", "scraped_date", "results"] ∧
    jsonLookup "base_url" (archiveJson indexUrl (strftimeModel t) (runScraper net indexUrl).1.results) =
      some (.str indexUrl) ∧
    jsonLookup "total_keywords" (archiveJson indexUrl (strftimeModel t) (runScraper net indexUrl).1.results) =
      some (.num (runScraper net indexUrl).1.results.length) ∧
    jsonLookup "scraped_date" (archiveJson indexUrl (strftimeModel t) (runScraper net indexUrl).1.results) =
      some (.str (strftimeModel t)) ∧
    jsonLookup "results" (archiveJson indexUrl (strftimeModel t) (runScraper net indexUrl).1.results) =
      some (.arr ((runScraper net indexUrl).1.results.map recordJson)) ∧
    dateFormatOk (strftimeModel t) = true := by
  refine ⟨rfl, rfl, rfl, rfl, rfl, dateFormatOk_strftime t⟩

theorem allStrs_map_str (xs : List String) : allStrs (xs.map Json.str) = some xs := by
  induction xs with
  | nil => rfl
  | cons x t ih => simp [allStrs, jsonStr?, ih]

theorem recordOfJson_recordJson (r : PageRecord) : recordOfJson (recordJson r) = some r := by
  simp [recordJson, recordOfJson, List.lookup, allStrs_map_str]

theorem allRecords_map_recordJson (rs : List PageRecord) :
    allRecords (rs.map recordJson) = some rs := by
  induction rs with
  | nil => rfl
  | cons r t ih => simp [allRecords, recordOfJson_recordJson, ih]

/-- Claim C8: serializing the accumulated records into the RunArchive and
reparsing the archive's `results` array reproduces the in-memory record
list, in order and content. -/
theorem c8_results_round_trip (baseUrl date : String) (rs : List PageRecord) :
    resultsOfJson (archiveJson baseUrl date rs) = some rs := by
  simp [resultsOfJson, archiveJson, jsonLookup, List.lookup, allRecords_map_recordJson]

theorem descWPList_trans (q : String) (l : List HNode) :
    ∀ t a cs pt, (HNode.elem t a cs, pt) ∈ descWPList q l →
      ∀ x ∈ descWPList t cs, x ∈ descWPList q l := by
  match l with
  | [] => intro t a cs pt h; simp [descWPList] at h
  | c :: rest =>
    intro t a cs pt h x hx
    rw [descWPList] at h ⊢
    rw [List.mem_append] at h ⊢
    rcases h with h | h
    · left
      cases c with
      | text s => simp [descWP] at h
      | elem t' a' cs' =>
        rw [descWP] at h ⊢
        rcases List.mem_cons.mp h with heq | hmem
        · obtain ⟨he, -⟩ := Prod.mk.injEq .. ▸ heq
          obtain ⟨ht, -, hcs⟩ := HNode.elem.injEq .. ▸ he
          exact List.mem_cons_of_mem _ (ht ▸ hcs ▸ hx)
        · exact List.mem_cons_of_mem _ (descWPList_trans t' cs' t a cs pt hmem x hx)
    · exact Or.inr (descWPList_trans q rest t a cs pt h x hx)
termination_by sizeOf l
decreasing_by
  all_goals simp <;> omega

theorem count_filterMap_two {α β : Type} [BEq β] [LawfulBEq β] (f : α → Option β)
    (l : List α) (a b : α) (t : β) (ha : a ∈ l) (hb : b ∈ l) (hab : a ≠ b)
    (hfa : f a = some t) (hfb : f b = some t) : 2 ≤ (l.filterMap f).count t := by
  induction l with
  | nil => simp at ha
  | cons c rest ih =>
    rcases List.mem_cons.mp ha with hac | ha'
    · have hb' : b ∈ rest := by
        rcases List.mem_cons.mp hb with hbc | hb'
        · exact absurd (hac.trans hbc.symm) hab
        · exact hb'
      rw [List.filterMap_cons, ← hac, hfa]
      have h1 : 0 < (rest.filterMap f).count t :=
        List.count_pos_iff.mpr (List.mem_filterMap.mpr ⟨b, hb', hfb⟩)
      rw [List.count_cons]
      simp only [beq_self_eq_true, if_true]
      omega
    · rcases List.mem_cons.mp hb with hbc | hb'
      · rw [List.filterMap_cons, ← hbc, hfb]
        have h1 : 0 < (rest.filterMap f).count t :=
          List.count_pos_iff.mpr (List.mem_filterMap.mpr ⟨a, ha', hfa⟩)
        rw [List.count_cons]
        simp only [beq_self_eq_true, if_true]
        omega
      · have h2 := ih ha' hb'
        rw [List.filterMap_cons]
        cases f c with
        | none => exact h2
        | some v =>
          rw [List.count_cons]
          omega

def c9Body : HNode :=
  .elem "body" [] [.elem "pre" [] [.text "foo ", .elem "code" [] [.text "X"]]]

theorem c9_nested_code_counterexample :
    bodyDescendants c9Body =
      [(HNode.elem "pre" [] [.text "foo ", .elem "code" [] [.text "X"]], "body"),
       (HNode.elem "code" [] [.text "X"], "pre")] ∧
    getTextStrip (HNode.elem "code" [] [.text "X"]) = "X" ∧
    getTextStrip (HNode.elem "pre" [] [.text "foo ", .elem "code" [] [.text "X"]]) = "fooX" ∧
    codeBlocks c9Body = ["fooX", "X"] ∧
    ¬ 2 ≤ (codeBlocks c9Body).count "X" ∧
    ¬ 2 ≤ (codeBlocks c9Body).count "fooX" := by
  refine ⟨rfl, by decide, by decide, by decide, by decide, by decide⟩

theorem c9_nested_code_amended (body : HNode) (pa ca : List (String × String))
    (pcs ccs : List HNode) (pt ct : String)
    (hpmem : (HNode.elem "pre" pa pcs, pt) ∈ bodyDescendants body)
    (hcmem : (HNode.elem "code" ca ccs, ct) ∈ descWPList "pre" pcs)
    (hne : getTextStrip (HNode.elem "code" ca ccs) ≠ "")
    (heq : getTextStrip (HNode.elem "pre" pa pcs) = getTextStrip (HNode.elem "code" ca ccs)) :
    2 ≤ (codeBlocks body).count (getTextStrip (HNode.elem "code" ca ccs)) := by
  cases body with
  | text s => simp [bodyDescendants] at hpmem
  | elem tb ab cbs =>
    rw [bodyDescendants] at hpmem
    have hcmem' : (HNode.elem "code" ca ccs, ct) ∈ descWPList tb cbs :=
      descWPList_trans tb cbs "pre" pa pcs pt hpmem _ hcmem
    unfold codeBlocks
    refine count_filterMap_two _ _
      (HNode.elem "pre" pa pcs, pt) (HNode.elem "code" ca ccs, ct) _
      hpmem hcmem'
      (by intro h
          exact absurd (show "pre" = "code" from congrArg (fun p : HNode × String => elemTag p.1) h)
            (by decide)) ?_ ?_
    · simp [heq, hne]
    · simp [hne]

def c9Body2 : HNode := .elem "body" [] [.elem "pre" [] [.elem "code" [] [.text "X"]]]

theorem c9_nested_code_amended_witness :
    2 ≤ (codeBlocks c9Body2).count (getTextStrip (HNode.elem "code" [] [.text "X"])) :=
  c9_nested_code_amended c9Body2 [] [] [.elem "code" [] [.text "X"]] [.text "X"]
    "body" "pre"
    (by simp [c9Body2, bodyDescendants, descWPList, descWP])
    (by simp [descWPList, descWP])
    (by decide) (by decide)

/-- Counterexample to claim C5 as stated: failing after 5 characters leaves
on disk a non-empty strict prefix of the serialized RunArchive — a
partially-written archive is persisted. -/
theorem c5_partial_write_counterexample :
    (save_results_disk "u" "d" [] (some 5)).2 = false ∧
    (save_results_disk "u" "d" [] (some 5)).1 ≠ [] ∧
    (save_results_disk "u" "d" [] (some 5)).1 ≠ (renderJson (archiveJson "u" "d" [])).toList ∧
    (save_results_disk "u" "d" [] (some 5)).1 ++ (renderJson (archiveJson "u" "d" [])).toList.drop 5
      = (renderJson (archiveJson "u" "d" [])).toList := by
  refine ⟨rfl, by decide, by decide, by decide⟩

/-- Claim C5 as amended: the write is not atomic.  `save_results` opens the
output in write mode (truncating it) and streams the JSON text with no
temporary file or rename; a failure strictly mid-stream leaves a non-empty
proper prefix of the archive on disk, and nothing recovers it. -/
theorem c5_partial_write_amended (baseUrl date : String) (results : List PageRecord)
    (k : Nat) (h1 : 0 < k)
    (h2 : k < (renderJson (archiveJson baseUrl date results)).toList.length) :
    (save_results_disk baseUrl date results (some k)).2 = false ∧
    (save_results_disk baseUrl date results (some k)).1 =
      (renderJson (archiveJson baseUrl date results)).toList.take k ∧
    (save_results_disk baseUrl date results (some k)).1 ≠ [] ∧
    (save_results_disk baseUrl date results (some k)).1.length <
      (renderJson (archiveJson baseUrl date results)).toList.length := by
  refine ⟨rfl, rfl, ?_, ?_⟩
  · intro hnil
    have hlen := congrArg List.length hnil
    rw [show (save_results_disk baseUrl date results (some k)).1 =
          (renderJson (archiveJson baseUrl date results)).toList.take k from rfl,
        List.length_take, List.length_nil] at hlen
    omega
  · rw [show (save_results_disk baseUrl date results (some k)).1 =
          (renderJson (archiveJson baseUrl date results)).toList.take k from rfl,
        List.length_take]
    omega

/-- Witness for the amended C5: the empty-results archive, interrupted
after 5 characters. -/
theorem c5_partial_write_amended_witness :
    (save_results_disk "u" "d" [] (some 5)).2 = false ∧
    (save_results_disk "u" "d" [] (some 5)).1 =
      (renderJson (archiveJson "u" "d" [])).toList.take 5 ∧
    (save_results_disk "u" "d" [] (some 5)).1 ≠ [] ∧
    (save_results_disk "u" "d" [] (some 5)).1.length <
      (renderJson (archiveJson "u" "d" [])).toList.length :=
  c5_partial_write_amended "u" "d" [] 5 (by decide) (by decide)

theorem processKeywordLinks_spec (net : Net) (links : List (String × String))
    (results : List PageRecord) :
    processKeywordLinks net links results =
      (results ++ links.filterMap (fun l => extract_keyword_content net l.2),
       links.map Prod.snd) := by
  induction links generalizing results with
  | nil => simp [processKeywordLinks]
  | cons a rest ih =>
    obtain ⟨kw, u⟩ := a
    rw [processKeywordLinks]
    cases hx : extract_keyword_content net u with
    | none => simp [hx, ih, List.filterMap_cons]
    | some r => simp [hx, ih, List.filterMap_cons]

/-- Claim C4: a keyword page whose fetch fails (network error, timeout or
HTTP status `≥ 400`) yields an absent fetch result and no record, and its
presence among the keyword links changes nothing about how the remaining
links are processed. -/
theorem c4_fetch_failure_isolated (net : Net) (url kw : String)
    (links1 links2 : List (String × String)) (results : List PageRecord)
    (h : net url = .failure ∨ ∃ code doc, net url = .success code doc ∧ 400 ≤ code) :
    fetch_page net url = none ∧
    extract_keyword_content net url = none ∧
    (processKeywordLinks net (links1 ++ (kw, url) :: links2) results).1 =
      (processKeywordLinks net (links1 ++ links2) results).1 := by
  have hf : fetch_page net url = none := by
    rcases h with h | ⟨code, doc, h, hc⟩
    · rw [fetch_page, h]
    · rw [fetch_page, h]
      have : ¬ code < 400 := by omega
      simp [this]
  have he : extract_keyword_content net url = none := by
    rw [extract_keyword_content, hf]
  refine ⟨hf, he, ?_⟩
  simp [processKeywordLinks_spec, List.filterMap_append, List.filterMap_cons, he]

/-- The witness network for C4: one keyword URL that times out, one that
answers 200 with an empty page. -/
def c4Net : Net := fun u =>
  if u = "http://h/section4/bad.html" then .failure
  else .success 200 ⟨.elem "html" [] []⟩

/-- Witness for C4: the failing link sits between two good links and
changes nothing. -/
theorem c4_fetch_failure_isolated_witness :
    fetch_page c4Net "http://h/section4/bad.html" = none ∧
    extract_keyword_content c4Net "http://h/section4/bad.html" = none ∧
    (processKeywordLinks c4Net
        ([("F", "http://h/section4/f.html")] ++
          ("BAD", "http://h/section4/bad.html") :: [("G", "http://h/section4/g.html")])
        []).1 =
      (processKeywordLinks c4Net
        ([("F", "http://h/section4/f.html")] ++ [("G", "http://h/section4/g.html")]) []).1 :=
  c4_fetch_failure_isolated c4Net "http://h/section4/bad.html" "BAD"
    [("F", "http://h/section4/f.html")] [("G", "http://h/section4/g.html")] []
    (Or.inl rfl)

theorem keywordDiscovery_spec (pageUrl : String) (tags : List (String × String)) :
    ∀ visited,
      (keywordDiscovery pageUrl tags visited).1 =
        visited ++ ((keywordDiscovery pageUrl tags visited).2).map (fun l => normalizeUrl l.2) ∧
      (∀ l ∈ (keywordDiscovery pageUrl tags visited).2, normalizeUrl l.2 ∉ visited) ∧
      (((keywordDiscovery pageUrl tags visited).2).map (fun l => normalizeUrl l.2)).Nodup := by
  induction tags with
  | nil => intro visited; simp [keywordDiscovery]
  | cons a rest ih =>
    intro visited
    obtain ⟨href, txt⟩ := a
    by_cases hs : strContains href "section4/" = true
    · by_cases hv : normalizeUrl (urljoin pageUrl href) ∈ visited
      · have hred : keywordDiscovery pageUrl ((href, txt) :: rest) visited =
            keywordDiscovery pageUrl rest visited := by
          simp only [keywordDiscovery, hs, if_true, hv, ite_true]
        rw [hred]
        exact ih visited
      · rcases hkd : keywordDiscovery pageUrl rest
            (visited ++ [normalizeUrl (urljoin pageUrl href)]) with ⟨v2, ks⟩
        have hred : keywordDiscovery pageUrl ((href, txt) :: rest) visited =
            (v2, (txt, urljoin pageUrl href) :: ks) := by
          simp only [keywordDiscovery, hs, if_true, hv, ite_false, hkd]
        have ihh := ih (visited ++ [normalizeUrl (urljoin pageUrl href)])
        rw [hkd] at ihh
        obtain ⟨ih1, ih2, ih3⟩ := ihh
        rw [hred]
        refine ⟨?_, ?_, ?_⟩
        · simpa [List.append_assoc] using ih1
        · intro l hl
          rcases List.mem_cons.mp hl with rfl | hl'
          · exact hv
          · intro hvis
            exact ih2 l hl' (List.mem_append_left _ hvis)
        · refine List.Nodup.cons ?_ ih3
          intro hmem
          rcases List.mem_map.mp hmem with ⟨l', hl', heq⟩
          exact ih2 l' hl'
            (heq ▸ List.mem_append_right _ (List.mem_singleton.mpr rfl))
    · have hred : keywordDiscovery pageUrl ((href, txt) :: rest) visited =
          keywordDiscovery pageUrl rest visited := by
        simp only [keywordDiscovery, hs, if_false]
        simp [hs]
      rw [hred]
      exact ih visited

/-- The discovery order of the whole walk: letters in root-index discovery
order, kept keyword links within a letter in document order, the visited
set threaded exactly as the crawl threads it.  This is the
specification-side enumeration of the keyword links a run processes. -/
def discoverLetters (net : Net) (letters : List (String × String)) (visited : List String) :
    List String × List (String × String) :=
  match letters with
  | [] => (visited, [])
  | (_, url) :: rest =>
    match fetch_page net url with
    | none => discoverLetters net rest visited
    | some doc =>
      let (v', ks) := keywordDiscovery url (aTagsNode doc.root) visited
      let (v'', ks') := discoverLetters net rest v'
      (v'', ks ++ ks')

theorem scrapeLetters_spec (net : Net) (letters : List (String × String)) :
    ∀ st : ScraperState,
      scrapeLetters net st letters =
        (⟨(discoverLetters net letters st.visited).1,
          st.results ++ ((discoverLetters net letters st.visited).2).filterMap
            (fun l => extract_keyword_content net l.2)⟩,
         ((discoverLetters net letters st.visited).2).map Prod.snd) := by
  induction letters with
  | nil => intro st; simp [scrapeLetters, discoverLetters]
  | cons a rest ih =>
    intro st
    obtain ⟨ltr, url⟩ := a
    cases hf : fetch_page net url with
    | none =>
      have h1 : scrapeLetters net st ((ltr, url) :: rest) = scrapeLetters net st rest := by
        simp [scrapeLetters, scrape_letter_page, hf]
      have h2 : discoverLetters net ((ltr, url) :: rest) st.visited =
          discoverLetters net rest st.visited := by
        simp only [discoverLetters, hf]
      rw [h1, h2]
      exact ih st
    | some doc =>
      rcases hkd : keywordDiscovery url (aTagsNode doc.root) st.visited with ⟨v1, ks⟩
      rcases hdl : discoverLetters net rest v1 with ⟨v2, ks'⟩
      have hsl : scrape_letter_page net st url =
          (⟨v1, st.results ++ ks.filterMap (fun l => extract_keyword_content net l.2)⟩,
           ks.map Prod.snd) := by
        simp only [scrape_letter_page, hf, hkd, processKeywordLinks_spec]
      have ihh := ih ⟨v1, st.results ++ ks.filterMap (fun l => extract_keyword_content net l.2)⟩
      have hL : scrapeLetters net st ((ltr, url) :: rest) =
          (⟨v2, (st.results ++ ks.filterMap (fun l => extract_keyword_content net l.2)) ++
                 ks'.filterMap (fun l => extract_keyword_content net l.2)⟩,
           ks.map Prod.snd ++ ks'.map Prod.snd) := by
        simp only [scrapeLetters, hsl, ihh, hdl]
      have hR : discoverLetters net ((ltr, url) :: rest) st.visited = (v2, ks ++ ks') := by
        simp only [discoverLetters, hf, hkd, hdl]
      rw [hL, hR]
      simp [List.filterMap_append, List.append_assoc]

theorem discoverLetters_spec (net : Net) (letters : List (String × String)) :
    ∀ visited,
      (discoverLetters net letters visited).1 =
        visited ++ ((discoverLetters net letters visited).2).map (fun l => normalizeUrl l.2) ∧
      (∀ l ∈ (discoverLetters net letters visited).2, normalizeUrl l.2 ∉ visited) ∧
      (((discoverLetters net letters visited).2).map (fun l => normalizeUrl l.2)).Nodup := by
  induction letters with
  | nil => intro visited; simp [discoverLetters]
  | cons a rest ih =>
    intro visited
    obtain ⟨ltr, url⟩ := a
    cases hf : fetch_page net url with
    | none =>
      have h2 : discoverLetters net ((ltr, url) :: rest) visited =
          discoverLetters net rest visited := by
        simp only [discoverLetters, hf]
      rw [h2]
      exact ih visited
    | some doc =>
      rcases hkd : keywordDiscovery url (aTagsNode doc.root) visited with ⟨v1, ks⟩
      rcases hdl : discoverLetters net rest v1 with ⟨v2, ks'⟩
      have hR : discoverLetters net ((ltr, url) :: rest) visited = (v2, ks ++ ks') := by
        simp only [discoverLetters, hf, hkd, hdl]
      have hkds := keywordDiscovery_spec url (aTagsNode doc.root) visited
      rw [hkd] at hkds
      dsimp only at hkds
      obtain ⟨k1, k2, k3⟩ := hkds
      have ihh := ih v1
      rw [hdl] at ihh
      dsimp only at ihh
      obtain ⟨d1, d2, d3⟩ := ihh
      rw [hR]
      refine ⟨?_, ?_, ?_⟩
      · rw [List.map_append, ← List.append_assoc, ← k1, d1]
      · intro l hl
        rcases List.mem_append.mp hl with hl' | hl'
        · exact k2 l hl'
        · intro hvis
          exact d2 l hl' (k1 ▸ List.mem_append_left _ hvis)
      · rw [List.map_append]
        refine List.Nodup.append k3 d3 ?_
        intro x hx hx'
        rcases List.mem_map.mp hx' with ⟨l', hl', rfl⟩
        exact d2 l' hl' (k1 ▸ List.mem_append_right _ hx)

/-- The keyword links one run discovers and processes, in order: empty when
the root index cannot be fetched, otherwise the walk over the letter links
starting from the empty visited set. -/
def runDiscovered (net : Net) (indexUrl : String) : List (String × String) :=
  match fetch_page net indexUrl with
  | none => []
  | some doc => (discoverLetters net (letterLinks indexUrl (aTagsNode doc.root)) []).2

theorem runScraper_results (net : Net) (indexUrl : String) :
    (runScraper net indexUrl).1.results =
      (runDiscovered net indexUrl).filterMap (fun l => extract_keyword_content net l.2) := by
  rw [runScraper, scrape_alphabet_index, runDiscovered]
  cases hf : fetch_page net indexUrl with
  | none => simp
  | some doc => dsimp only; rw [scrapeLetters_spec]; simp

theorem runScraper_trace (net : Net) (indexUrl : String) :
    (runScraper net indexUrl).2 = (runDiscovered net indexUrl).map Prod.snd := by
  rw [runScraper, scrape_alphabet_index, runDiscovered]
  cases hf : fetch_page net indexUrl with
  | none => simp
  | some doc => dsimp only; rw [scrapeLetters_spec]

theorem runScraper_visited (net : Net) (indexUrl : String) :
    (runScraper net indexUrl).1.visited =
      (runDiscovered net indexUrl).map (fun l => normalizeUrl l.2) := by
  rw [runScraper, scrape_alphabet_index, runDiscovered]
  cases hf : fetch_page net indexUrl with
  | none => simp
  | some doc =>
    dsimp only
    rw [scrapeLetters_spec]
    have h := discoverLetters_spec net (letterLinks indexUrl (aTagsNode doc.root)) []
    simpa using h.1

theorem runDiscovered_nodup (net : Net) (indexUrl : String) :
    ((runDiscovered net indexUrl).map (fun l => normalizeUrl l.2)).Nodup := by
  rw [runDiscovered]
  cases hf : fetch_page net indexUrl with
  | none => simp
  | some doc => dsimp only; exact (discoverLetters_spec net (letterLinks indexUrl (aTagsNode doc.root)) []).2.2

/-- Claim C6: the accumulated results are exactly the successful extractions
of the discovered keyword links, in discovery order — letter pages in the
order their links appear on the root index, keyword links within a letter
in document order, failures contributing nothing. -/
theorem c6_results_order (net : Net) (indexUrl : String) :
    (runScraper net indexUrl).1.results =
      (runDiscovered net indexUrl).filterMap (fun l => extract_keyword_content net l.2) :=
  runScraper_results net indexUrl

theorem extract_keyword_content_url (net : Net) (url : String) (r : PageRecord)
    (h : extract_keyword_content net url = some r) : r.url = url := by
  rw [extract_keyword_content] at h
  cases hf : fetch_page net url with
  | none => rw [hf] at h; exact absurd h (by simp)
  | some doc =>
    rw [hf] at h
    dsimp only at h
    cases hb : findFirstTag "body" doc.root with
    | none => rw [hb] at h; injection h with h'; rw [← h']
    | some body => rw [hb] at h; injection h with h'; rw [← h']

theorem count_records_one (net : Net) (links : List (String × String))
    (hnd : (links.map (fun l => normalizeUrl l.2)).Nodup)
    (hsucc : ∀ l ∈ links, extract_keyword_content net l.2 ≠ none)
    (l0 : String × String) (hmem : l0 ∈ links) :
    (links.filterMap (fun l => extract_keyword_content net l.2)).countP
      (fun r => normalizeUrl r.url == normalizeUrl l0.2) = 1 := by
  induction links with
  | nil => simp at hmem
  | cons a rest ih =>
    rw [List.map_cons, List.nodup_cons] at hnd
    obtain ⟨hna, hndr⟩ := hnd
    cases hx : extract_keyword_content net a.2 with
    | none => exact absurd hx (hsucc a (List.mem_cons_self a rest))
    | some r =>
      have hr : r.url = a.2 := extract_keyword_content_url net a.2 r hx
      rw [List.filterMap_cons, hx, List.countP_cons]
      rcases List.mem_cons.mp hmem with rfl | h0
      · have hpr : (normalizeUrl r.url == normalizeUrl l0.2) = true := by
          rw [hr]; exact beq_self_eq_true _
        have hz : (rest.filterMap (fun l => extract_keyword_content net l.2)).countP
            (fun r => normalizeUrl r.url == normalizeUrl l0.2) = 0 := by
          rw [List.countP_eq_zero]
          intro r' hr'
          rcases List.mem_filterMap.mp hr' with ⟨l', hl', hx'⟩
          have hu : r'.url = l'.2 := extract_keyword_content_url net l'.2 r' hx'
          rw [hu]
          intro hbeq
          exact hna (List.mem_map.mpr ⟨l', hl', eq_of_beq hbeq⟩)
        rw [hpr]
        simp [hz]
      · have hpr : (normalizeUrl r.url == normalizeUrl l0.2) = false := by
          rw [hr]
          rw [beq_eq_false_iff_ne]
          intro hbeq
          exact hna (List.mem_map.mpr ⟨l0, h0, hbeq.symm⟩)
        rw [hpr]
        simpa using ih hndr (fun l hl => hsucc l (List.mem_cons_of_mem a hl)) h0

theorem count_records_le_one (net : Net) (links : List (String × String))
    (hnd : (links.map (fun l => normalizeUrl l.2)).Nodup) (nu : String) :
    (links.filterMap (fun l => extract_keyword_content net l.2)).countP
      (fun r => normalizeUrl r.url == nu) ≤ 1 := by
  induction links with
  | nil => simp
  | cons a rest ih =>
    rw [List.map_cons, List.nodup_cons] at hnd
    obtain ⟨hna, hndr⟩ := hnd
    cases hx : extract_keyword_content net a.2 with
    | none => rw [List.filterMap_cons, hx]; exact ih hndr
    | some r =>
      have hr : r.url = a.2 := extract_keyword_content_url net a.2 r hx
      rw [List.filterMap_cons, hx, List.countP_cons]
      by_cases hp : (normalizeUrl r.url == nu) = true
      · have heq : normalizeUrl a.2 = nu := hr ▸ eq_of_beq hp
        have hz : (rest.filterMap (fun l => extract_keyword_content net l.2)).countP
            (fun r => normalizeUrl r.url == nu) = 0 := by
          rw [List.countP_eq_zero]
          intro r' hr'
          rcases List.mem_filterMap.mp hr' with ⟨l', hl', hx'⟩
          have hu : r'.url = l'.2 := extract_keyword_content_url net l'.2 r' hx'
          rw [hu]
          intro hbeq
          exact hna (List.mem_map.mpr ⟨l', hl', (eq_of_beq hbeq).trans heq.symm⟩)
        rw [hp]
        simp [hz]
      · rw [Bool.eq_false_iff.mpr hp]
        simpa using ih hndr

/-- Claim C1: whatever normalized URL `nu` one asks about, the accumulated
results never hold two records with that normalized URL; and for a network
on which every discovered keyword page extracts successfully, each
discovered keyword link's normalized URL is represented by exactly one
record — keyword links reaching the same host+path (whatever their query,
fragment, discovering letter page or anchor text) never produce a second
record. -/
theorem c1_dedup_unique_record (net : Net) (indexUrl nu : String) (l0 : String × String)
    (hmem : l0 ∈ runDiscovered net indexUrl)
    (hsucc : ∀ l ∈ runDiscovered net indexUrl, extract_keyword_content net l.2 ≠ none) :
    ((runScraper net indexUrl).1.results).countP
      (fun r => normalizeUrl r.url == nu) ≤ 1 ∧
    ((runScraper net indexUrl).1.results).countP
      (fun r => normalizeUrl r.url == normalizeUrl l0.2) = 1 := by
  rw [runScraper_results]
  exact ⟨count_records_le_one net (runDiscovered net indexUrl)
      (runDiscovered_nodup net indexUrl) nu,
    count_records_one net (runDiscovered net indexUrl)
      (runDiscovered_nodup net indexUrl) hsucc l0 hmem⟩

theorem countP_norm_le_one (nu : String) (links : List (String × String))
    (hnd : (links.map (fun l => normalizeUrl l.2)).Nodup) :
    links.countP (fun l => normalizeUrl l.2 == nu) ≤ 1 := by
  induction links with
  | nil => simp
  | cons a rest ih =>
    rw [List.map_cons, List.nodup_cons] at hnd
    obtain ⟨hna, hndr⟩ := hnd
    rw [List.countP_cons]
    by_cases hp : (normalizeUrl a.2 == nu) = true
    · have heq : normalizeUrl a.2 = nu := eq_of_beq hp
      have hz : rest.countP (fun l => normalizeUrl l.2 == nu) = 0 := by
        rw [List.countP_eq_zero]
        intro l' hl' hbeq
        exact hna (List.mem_map.mpr ⟨l', hl', (eq_of_beq hbeq).trans heq.symm⟩)
      rw [hp]
      simp [hz]
    · rw [Bool.eq_false_iff.mpr hp]
      simpa using ih hndr

/-- Claim C10: every keyword URL the run attempts to fetch has its
normalized form in the final visited set (it was recorded at discovery
time, before the fetch), and the keyword-fetch trace attempts any
normalized URL at most once — a page is never re-fetched, even after a
failure, and even when a link to the same host+path appears on another
letter page. -/
theorem c10_single_fetch_per_url (net : Net) (indexUrl nu url : String)
    (h : url ∈ (runScraper net indexUrl).2) :
    normalizeUrl url ∈ (runScraper net indexUrl).1.visited ∧
    ((runScraper net indexUrl).2).countP (fun u => normalizeUrl u == nu) ≤ 1 := by
  constructor
  · rw [runScraper_trace] at h
    rw [runScraper_visited]
    rcases List.mem_map.mp h with ⟨l, hl, rfl⟩
    exact List.mem_map.mpr ⟨l, hl, rfl⟩
  · rw [runScraper_trace, List.countP_map]
    exact countP_norm_le_one nu (runDiscovered net indexUrl) (runDiscovered_nodup net indexUrl)

/-- A concrete keyword page for the run-level witnesses. -/
def wKwPage : HtmlDoc := ⟨.elem "html" [] [
  .elem "head" [] [.elem "title" [] [.text " ABS() "]],
  .elem "body" [] [
    .elem "h1" [] [.text "Returns absolute value"],
    .elem "footer" [] [.elem "p" [] [.text "footer text"]],
    .elem "pre" [] [.text "? ABS(-5)"]]]⟩

/-- A concrete letter page: two keyword links reaching the same host+path
(one with a query string) and one non-keyword link. -/
def wLetterPage : HtmlDoc := ⟨.elem "html" [] [
  .elem "body" [] [
    .elem "a" [("href", "/section4/abs.html")] [.text "ABS"],
    .elem "a" [("href", "/section4/abs.html?x=1")] [.text "ABS dup"],
    .elem "a" [("href", "other.html")] [.text "other"]]]⟩

/-- A concrete root index page: a letter link, a rejected multi-character
link and a same-page `@` link. -/
def wIndexPage : HtmlDoc := ⟨.elem "html" [] [
  .elem "body" [] [
    .elem "a" [("href", "/section4/a.html")] [.text "A"],
    .elem "a" [("href", "/section4/ab.html")] [.text "AB"],
    .elem "a" [("href", "#top")] [.text "@"]]]⟩

/-- The concrete network for the run-level witnesses; every other URL
(including the `@` letter's same-page target) fails. -/
def wNet : Net := fun u =>
  if u = "http://h/section4/" then .success 200 wIndexPage
  else if u = "http://h/section4/a.html" then .success 200 wLetterPage
  else if u = "http://h/section4/abs.html" then .success 200 wKwPage
  else .failure

/-- Witness for C1: on the concrete site with two links normalizing to
`h/section4/abs.html`, exactly one record with that normalized URL is
accumulated. -/
theorem c1_dedup_unique_record_witness :
    ((runScraper wNet "http://h/section4/").1.results).countP
      (fun r => normalizeUrl r.url == "h/section4/abs.html") ≤ 1 ∧
    ((runScraper wNet "http://h/section4/").1.results).countP
      (fun r => normalizeUrl r.url ==
        normalizeUrl (("ABS", "http://h/section4/abs.html") : String × String).2) = 1 :=
  c1_dedup_unique_record wNet "http://h/section4/" "h/section4/abs.html"
    ("ABS", "http://h/section4/abs.html") (by decide) (by decide)

/-- Witness for C10 on the concrete site. -/
theorem c10_single_fetch_per_url_witness :
    normalizeUrl "http://h/section4/abs.html" ∈ (runScraper wNet "http://h/section4/").1.visited ∧
    ((runScraper wNet "http://h/section4/").2).countP
      (fun u => normalizeUrl u == "h/section4/abs.html") ≤ 1 :=
  c10_single_fetch_per_url wNet "http://h/section4/" "h/section4/abs.html"
    "http://h/section4/abs.html" (by decide)
